import Mathlib

/-!
Shallow embedding of the `kvs` sharded in-memory key-value store (Go).

Sources embedded:
- `src/kvs.go`     : `KeyValueStore` with `NewKeyValueStore`, `shardIndex`,
  `Begin`/`Commit`/`Rollback`, `Set`, `Get`, `Delete`, `BatchSet`,
  `BatchDelete`, `Keys`, `Size`.
- `src/err.go`     : the `ErrCode` error taxonomy.
- `src/unnamed/part_001` : `formatSize`.
- `src/unnamed/part_003` : the `shard` struct and `shard.Keys`.

Modelling conventions:
- Go values (`Value` interface) are modelled as a `ref` (pointer identity of
  the interface value handed to / out of the store) plus `data` (the deep
  contents).  Two values are deep-equal when their `data` agree, and
  reference-identical when their `ref` agree.  The Go code in `src/kvs.go`
  never calls `Clone`, so no clone operation occurs in any operation model.
- Each shard's `sync.RWMutex` is modelled by `mu : Bool`: `true` means the
  (single, sequential) calling thread holds the write lock.  Go's mutexes are
  not reentrant: `Lock()` on a mutex already held by the caller blocks
  forever.  A lock/unlock pair completed inside one call leaves `mu` as it
  found it; a `Lock()` attempted while `mu = true` is a self-deadlock and is
  modelled as `none`.  `Unlock()` of an unlocked mutex is a Go fatal error,
  also `none`.
- Go runtime panics (negative `make` length, `%` by zero, out-of-range
  indexing) are modelled as `none`.
- Go maps are modelled as `AList` (finite association list with distinct
  keys); map iteration order is the entry order of the `AList`.
-/

/-- A stored value: `ref` models the identity of the Go interface reference,
`data` models the deep contents compared by deep equality. -/
structure Value where
  ref : Nat
  data : Nat
deriving DecidableEq, Repr

/-- Error codes from `src/err.go`.  `ErrInvalidNumShards` is declared there
but is never returned by any function in the repository. -/
inductive ErrCode where
  | ErrUnknown
  | ErrNotFound
  | ErrDuplicate
  | ErrInvalidNumShards
deriving DecidableEq, Repr

/-- A shard (`src/unnamed/part_003`): ordinal `id`, its `sync.RWMutex`
(modelled by `mu`, see the header comment), and the key-value map. -/
structure shard where
  id : Nat
  mu : Bool
  store : AList (fun _ : String => Value)

/-- The sharded store (`src/kvs.go`): the shard slice and the shard count
used as the hash modulus. -/
structure KeyValueStore where
  shards : List shard
  count : Nat

/-- UTF-8 encoding of one Unicode code point; Go strings are UTF-8 and
`key[i]` in `shardIndex` reads raw UTF-8 bytes. -/
def utf8Bytes (c : Nat) : List Nat :=
  if c < 0x80 then [c]
  else if c < 0x800 then [0xC0 ||| (c >>> 6), 0x80 ||| (c &&& 0x3F)]
  else if c < 0x10000 then
    [0xE0 ||| (c >>> 12), 0x80 ||| ((c >>> 6) &&& 0x3F), 0x80 ||| (c &&& 0x3F)]
  else
    [0xF0 ||| (c >>> 18), 0x80 ||| ((c >>> 12) &&& 0x3F),
     0x80 ||| ((c >>> 6) &&& 0x3F), 0x80 ||| (c &&& 0x3F)]

/-- The raw bytes of a Go string (its UTF-8 encoding). -/
def keyBytes (k : String) : List Nat :=
  (k.toList.map (fun c => utf8Bytes c.toNat)).flatten

/-- The hash loop of `KeyValueStore.shardIndex` (`src/kvs.go`):
`h` starts at `2166136261`; for each byte, `h = (h * 16777619) ^ byte`,
in wrapping 32-bit (`uint32`) arithmetic. -/
def fnv32 (bytes : List Nat) : Nat :=
  bytes.foldl (fun h b => ((h * 16777619) % 4294967296) ^^^ b) 2166136261

/-- Model of `NewKeyValueStore` (`src/kvs.go`): allocates `numShards` shards, each
with an empty map and an unlocked mutex.  There is no validation of
`numShards`: a negative value makes `make([]*shard, numShards)` panic
(modelled `none`); `0` yields a store with no shards. -/
def NewKeyValueStore (numShards : Int) : Option KeyValueStore :=
  if numShards < 0 then none
  else some { shards := (List.range numShards.toNat).map
                (fun i => { id := i, mu := false, store := ∅ }),
              count := numShards.toNat }

/-- Model of `KeyValueStore.shardIndex` (`src/kvs.go`): FNV-1a-style hash of the key
bytes, reduced `mod count`.  `int(h)` is non-negative (`h` is `uint32`,
`int` is 64-bit), so Go `%` agrees with `Nat.mod`.  When `count = 0` the
Go expression `int(h) % kvs.count` panics (modelled `none`). -/
def KeyValueStore.shardIndex (kvs : KeyValueStore) (key : String) : Option Nat :=
  if kvs.count = 0 then none
  else some (fnv32 (keyBytes key) % kvs.count)

/-- Replace shard `i` of the store (the effect of mutating `kvs.shards[i]`
through its pointer). -/
def setShards (kvs : KeyValueStore) (i : Nat) (sh : shard) : KeyValueStore :=
  { kvs with shards := kvs.shards.set i sh }

/-- The `for _, sh := range kvs.shards { sh.mu.Lock() }` loop of `Begin`:
locks every shard in slice (ascending index) order; deadlocks (`none`) at
the first shard whose lock this thread already holds. -/
def lockAll : List shard → Option (List shard)
  | [] => some []
  | sh :: rest =>
    if sh.mu then none
    else (lockAll rest).map (fun r => { sh with mu := true } :: r)

/-- The `for _, sh := range kvs.shards { sh.mu.Unlock() }` loop of `Commit`
and `Rollback`: unlocks every shard in slice order; `Unlock` of an unlocked
mutex is a Go fatal error (`none`). -/
def unlockAll : List shard → Option (List shard)
  | [] => some []
  | sh :: rest =>
    if sh.mu then (unlockAll rest).map (fun r => { sh with mu := false } :: r)
    else none

/-- Model of `KeyValueStore.Begin` (`src/kvs.go`): write-locks every shard in
ascending index order.  The Go function always returns a `nil` error. -/
def KeyValueStore.Begin (kvs : KeyValueStore) : Option KeyValueStore :=
  (lockAll kvs.shards).map (fun shs => { kvs with shards := shs })

/-- Model of `KeyValueStore.Commit` (`src/kvs.go`): unlocks every shard.  The Go
function always returns a `nil` error. -/
def KeyValueStore.Commit (kvs : KeyValueStore) : Option KeyValueStore :=
  (unlockAll kvs.shards).map (fun shs => { kvs with shards := shs })

/-- Model of `KeyValueStore.Rollback` (`src/kvs.go`): unlocks every shard — the body
is identical to `Commit`.  The Go function always returns a `nil` error. -/
def KeyValueStore.Rollback (kvs : KeyValueStore) : Option KeyValueStore :=
  (unlockAll kvs.shards).map (fun shs => { kvs with shards := shs })

/-- Model of `KeyValueStore.Set` (`src/kvs.go`): routes to the shard, takes its write
lock (deadlock if this thread already holds it), stores the caller's value
`val` itself under `key` (`sh.store[key] = val` — no `Clone` call), unlocks,
returns `nil`. -/
def KeyValueStore.Set (kvs : KeyValueStore) (key : String) (val : Value) :
    Option (KeyValueStore × Option ErrCode) := do
  let index ← kvs.shardIndex key
  let sh ← kvs.shards.get? index
  if sh.mu then none
  else
    let sh2 : shard := { sh with store := sh.store.insert key val }
    some (setShards kvs index sh2, none)

/-- Model of `KeyValueStore.Get` (`src/kvs.go`): routes to the shard, takes its read
lock (blocks if this thread holds the write lock), looks the key up; absent
keys give `(nil, ErrNotFound)`, present keys give the stored value itself
back (`return val, nil` — no `Clone` call). -/
def KeyValueStore.Get (kvs : KeyValueStore) (key : String) :
    Option (Except ErrCode Value) := do
  let index ← kvs.shardIndex key
  let sh ← kvs.shards.get? index
  if sh.mu then none
  else match sh.store.lookup key with
    | none => some (Except.error ErrCode.ErrNotFound)
    | some v => some (Except.ok v)

/-- Model of `KeyValueStore.Delete` (`src/kvs.go`): routes to the shard, takes its
write lock; if the key is absent it returns `ErrNotFound` with the store
unchanged, otherwise it removes the entry and returns `nil`. -/
def KeyValueStore.Delete (kvs : KeyValueStore) (key : String) :
    Option (KeyValueStore × Option ErrCode) := do
  let index ← kvs.shardIndex key
  let sh ← kvs.shards.get? index
  if sh.mu then none
  else match sh.store.lookup key with
    | none => some (kvs, some ErrCode.ErrNotFound)
    | some _ =>
      let sh2 : shard := { sh with store := sh.store.erase key }
      some (setShards kvs index sh2, none)

/-- Model of `KeyValueStore.BatchSet` (`src/kvs.go`): `Begin()` (write-locks every
shard), then for each entry of the map (in iteration order, modelled by the
list order) routes to the shard and calls `sh.mu.Lock()` again — on a shard
this thread locked in `Begin`, that is a self-deadlock — writes, unlocks;
finally `Commit()`.  `Begin`/`Commit` never return a non-nil error, so the
two `if err != nil` branches of the Go code are dead and not modelled. -/
def KeyValueStore.BatchSet (kvs : KeyValueStore) (kvMap : List (String × Value)) :
    Option (KeyValueStore × Option ErrCode) := do
  let kvs1 ← kvs.Begin
  let kvs2 ← kvMap.foldlM (fun acc kv => do
    let index ← acc.shardIndex kv.1
    let sh ← acc.shards.get? index
    if sh.mu then none
    else
      let sh2 : shard := { sh with store := sh.store.insert kv.1 kv.2 }
      some (setShards acc index sh2)) kvs1
  let kvs3 ← kvs2.Commit
  some (kvs3, none)

/-- Model of `KeyValueStore.BatchDelete` (`src/kvs.go`): `Begin()`, then for each key
routes to the shard, calls `sh.mu.Lock()` again (self-deadlock on a shard
locked by `Begin`), `delete(sh.store, key)` (a no-op for absent keys, no
`NotFound`), unlocks; finally `Commit()`. -/
def KeyValueStore.BatchDelete (kvs : KeyValueStore) (keys : List String) :
    Option (KeyValueStore × Option ErrCode) := do
  let kvs1 ← kvs.Begin
  let kvs2 ← keys.foldlM (fun acc key => do
    let index ← acc.shardIndex key
    let sh ← acc.shards.get? index
    if sh.mu then none
    else
      let sh2 : shard := { sh with store := sh.store.erase key }
      some (setShards acc index sh2)) kvs1
  let kvs3 ← kvs2.Commit
  some (kvs3, none)

/-- Model of `shard.Keys` (`src/unnamed/part_003`): collects the shard map's keys in
iteration order; always returns a `nil` error. -/
def shard.Keys (s : shard) : List String × Option ErrCode :=
  (s.store.keys, none)

/-- One iteration of the `Keys` loop over shards: takes the shard's read
lock (blocks if this thread holds the write lock), appends `sh.Keys()`;
the `if err != nil` early return is dead because `shard.Keys` never fails. -/
def keysStep (acc : List String) (sh : shard) : Option (List String) :=
  if sh.mu then none
  else match sh.Keys with
    | (shKeys, none) => some (acc ++ shKeys)
    | (_, some _) => none

/-- Model of `KeyValueStore.Keys` (`src/kvs.go`): concatenates each shard's keys,
visiting the shards in slice order, each under its own read lock. -/
def KeyValueStore.Keys (kvs : KeyValueStore) : Option (List String × Option ErrCode) := do
  let keys ← kvs.shards.foldlM keysStep []
  some (keys, none)

/-- The suffix table of `formatSize` (`src/unnamed/part_001`). -/
def suffixes : List String :=
  ["B", "KB", "MB", "GB", "TB", "PB", "EB", "ZB", "YB"]

/-- The suffix-selection loop of `formatSize`: runs over the suffix list
with `divisor` starting at 1; breaks at the first suffix with
`size < divisor*1024`, multiplying `divisor` by 1024 otherwise.  If the loop
exhausts the list (impossible for a `uint64` size), `suffix` keeps its Go
zero value `""`. -/
def formatSizeLoop (size : Nat) : Nat → List String → Nat × String
  | divisor, [] => (divisor, "")
  | divisor, s :: rest =>
    if size < divisor * 1024 then (divisor, s)
    else formatSizeLoop size (divisor * 1024) rest

/-- Model of `formatSize` (`src/unnamed/part_001`): renders an entry count as a
byte-suffix string, `fmt.Sprintf` of the quotient, a space and the suffix. -/
def formatSize (size : Nat) : String :=
  let ds := formatSizeLoop size 1 suffixes
  toString (size / ds.1) ++ " " ++ ds.2

/-- One iteration of the `Size` loop over shards: takes the read lock
(blocks if this thread holds the write lock) and adds `len(sh.store)` to
the running `uint64` total (wrapping arithmetic). -/
def sizeStep (acc : Nat) (sh : shard) : Option Nat :=
  if sh.mu then none
  else some ((acc + sh.store.entries.length) % 18446744073709551616)

/-- Model of `KeyValueStore.Size` (`src/kvs.go`): sums the per-shard entry counts
into a `uint64` and renders the total with `formatSize`. -/
def KeyValueStore.Size (kvs : KeyValueStore) : Option String := do
  let totalSize ← kvs.shards.foldlM sizeStep 0
  some (formatSize totalSize)

/-- The shard index a key routes to in a store with `count` shards (the
value `shardIndex` returns when `count` is positive). -/
def shardOf (count : Nat) (key : String) : Nat :=
  fnv32 (keyBytes key) % count

/-- Total number of entries across all shards (as an unbounded natural). -/
def totalEntries (kvs : KeyValueStore) : Nat :=
  (kvs.shards.map (fun sh => sh.store.entries.length)).sum

/-- Well-formed sequential store state: positive shard count, the shard
slice has exactly `count` shards, and no shard lock is held by us.  Every
store returned by `NewKeyValueStore n` with `n > 0` satisfies this, and the
single-key operations preserve it. -/
def WF (kvs : KeyValueStore) : Prop :=
  0 < kvs.count ∧ kvs.shards.length = kvs.count ∧ ∀ sh ∈ kvs.shards, sh.mu = false

instance (kvs : KeyValueStore) : Decidable (WF kvs) := by
  unfold WF; infer_instance

/-- A single-key mutating operation, for describing sequential histories. -/
inductive Op where
  | set (key : String) (val : Value)
  | del (key : String)

/-- Run one operation, keeping the resulting store (`Delete` of an absent
key returns `ErrNotFound` but leaves the store unchanged, so the history
continues). -/
def applyOp (kvs : KeyValueStore) : Op → Option KeyValueStore
  | Op.set k v => (kvs.Set k v).map Prod.fst
  | Op.del k => (kvs.Delete k).map Prod.fst

/-- Run a sequential history of operations. -/
def runOps (kvs : KeyValueStore) (ops : List Op) : Option KeyValueStore :=
  ops.foldlM applyOp kvs

/-- The set of distinct keys that have been Set and not subsequently
Deleted, updated by one operation. -/
def liveStep (s : Finset String) : Op → Finset String
  | Op.set k _ => insert k s
  | Op.del k => s.erase k

/-- The set of distinct keys that a history leaves present. -/
def liveOf (ops : List Op) : Finset String :=
  ops.foldl liveStep ∅

/-- Routing invariant: every key present in a shard is in the shard its
hash routes it to. -/
def Routed (kvs : KeyValueStore) : Prop :=
  ∀ i sh, kvs.shards.get? i = some sh → ∀ k, k ∈ sh.store → shardOf kvs.count k = i

/-- The store's contents agree with a key set: a key is in `live` exactly
when its routed shard contains it. -/
def Tracks (kvs : KeyValueStore) (live : Finset String) : Prop :=
  ∀ k, k ∈ live ↔ ∃ sh, kvs.shards.get? (shardOf kvs.count k) = some sh ∧ k ∈ sh.store

/-- Invariant carried along a sequential history. -/
def HistInv (kvs : KeyValueStore) (live : Finset String) : Prop :=
  WF kvs ∧ Routed kvs ∧ Tracks kvs live

/-! ### Basic facts about routing and the single-key operations -/

theorem shardOf_lt (count : Nat) (key : String) (h : 0 < count) :
    shardOf count key < count :=
  Nat.mod_lt _ h

theorem shardIndex_eq (kvs : KeyValueStore) (key : String) (h : 0 < kvs.count) :
    kvs.shardIndex key = some (shardOf kvs.count key) := by
  unfold KeyValueStore.shardIndex shardOf
  simp [Nat.pos_iff_ne_zero.mp h]

theorem exists_shard (kvs : KeyValueStore) (key : String) (hwf : WF kvs) :
    ∃ sh, kvs.shards.get? (shardOf kvs.count key) = some sh ∧ sh.mu = false := by
  obtain ⟨hpos, hlen, hmu⟩ := hwf
  have hlt : shardOf kvs.count key < kvs.shards.length := by
    rw [hlen]; exact shardOf_lt _ _ hpos
  exact ⟨_, List.get?_eq_get hlt, hmu _ (List.get_mem _ _ _)⟩

theorem Set_eq (kvs : KeyValueStore) (k : String) (v : Value) (sh : shard)
    (hpos : 0 < kvs.count)
    (hsh : kvs.shards.get? (shardOf kvs.count k) = some sh) (hmu : sh.mu = false) :
    kvs.Set k v =
      some (setShards kvs (shardOf kvs.count k)
        { sh with store := sh.store.insert k v }, none) := by
  unfold KeyValueStore.Set
  rw [shardIndex_eq kvs k hpos]
  rw [List.get?_eq_getElem?] at hsh
  simp [Option.bind_eq_bind, hsh, hmu]

theorem Get_eq (kvs : KeyValueStore) (k : String) (sh : shard)
    (hpos : 0 < kvs.count)
    (hsh : kvs.shards.get? (shardOf kvs.count k) = some sh) (hmu : sh.mu = false) :
    kvs.Get k = some (match sh.store.lookup k with
      | none => Except.error ErrCode.ErrNotFound
      | some v => Except.ok v) := by
  unfold KeyValueStore.Get
  rw [shardIndex_eq kvs k hpos]
  simp only [Option.bind_eq_bind, Option.some_bind, hsh, hmu, Bool.false_eq_true,
    if_false]
  cases sh.store.lookup k <;> rfl

theorem Delete_eq_absent (kvs : KeyValueStore) (k : String) (sh : shard)
    (hpos : 0 < kvs.count)
    (hsh : kvs.shards.get? (shardOf kvs.count k) = some sh) (hmu : sh.mu = false)
    (habs : sh.store.lookup k = none) :
    kvs.Delete k = some (kvs, some ErrCode.ErrNotFound) := by
  unfold KeyValueStore.Delete
  rw [shardIndex_eq kvs k hpos]
  rw [List.get?_eq_getElem?] at hsh
  simp [Option.bind_eq_bind, hsh, hmu, habs]

theorem Delete_eq_present (kvs : KeyValueStore) (k : String) (sh : shard) (v : Value)
    (hpos : 0 < kvs.count)
    (hsh : kvs.shards.get? (shardOf kvs.count k) = some sh) (hmu : sh.mu = false)
    (hpres : sh.store.lookup k = some v) :
    kvs.Delete k =
      some (setShards kvs (shardOf kvs.count k)
        { sh with store := sh.store.erase k }, none) := by
  unfold KeyValueStore.Delete
  rw [shardIndex_eq kvs k hpos]
  rw [List.get?_eq_getElem?] at hsh
  simp [Option.bind_eq_bind, hsh, hmu, hpres]

theorem WF_setShards (kvs : KeyValueStore) (i : Nat) (sh : shard)
    (hwf : WF kvs) (hmu : sh.mu = false) : WF (setShards kvs i sh) := by
  obtain ⟨hpos, hlen, hall⟩ := hwf
  refine ⟨hpos, by simpa [setShards] using hlen, ?_⟩
  intro x hx
  rcases List.mem_or_eq_of_mem_set hx with h | h
  · exact hall x h
  · rw [h]; exact hmu

/-! ### Invariant preservation along sequential histories -/

theorem new_inv (n : Nat) (h : 0 < n) :
    ∃ s0, NewKeyValueStore (n : Int) = some s0 ∧ HistInv s0 ∅ := by
  refine ⟨⟨(List.range n).map (fun i => ⟨i, false, ∅⟩), n⟩, ?_, ?_, ?_, ?_⟩
  · unfold NewKeyValueStore
    rw [if_neg (by exact Int.not_lt.mpr (Int.natCast_nonneg n))]
    simp
  · refine ⟨h, by simp, ?_⟩
    intro sh hsh
    simp only [List.mem_map, List.mem_range] at hsh
    obtain ⟨i, _, rfl⟩ := hsh
    rfl
  · intro i sh hget k hk
    simp only [List.get?_eq_getElem?, List.getElem?_map] at hget
    rcases h' : (List.range n)[i]? with _ | j
    · rw [h'] at hget; simp at hget
    · rw [h'] at hget
      simp only [Option.map_some'] at hget
      obtain rfl := Option.some_injective _ hget
      exact absurd hk (AList.not_mem_empty k)
  · intro k
    simp only [Finset.not_mem_empty, false_iff]
    rintro ⟨sh, hget, hk⟩
    simp only [List.get?_eq_getElem?, List.getElem?_map] at hget
    rcases h' : (List.range n)[shardOf n k]? with _ | j
    · rw [h'] at hget; simp at hget
    · rw [h'] at hget
      simp only [Option.map_some'] at hget
      obtain rfl := Option.some_injective _ hget
      exact absurd hk (AList.not_mem_empty k)

theorem Routed_update (kvs : KeyValueStore) (idx : Nat) (sh newsh : shard)
    (hsh : kvs.shards.get? idx = some sh)
    (hkeys : ∀ k, k ∈ newsh.store → k ∈ sh.store ∨ shardOf kvs.count k = idx)
    (hr : Routed kvs) : Routed (setShards kvs idx newsh) := by
  intro i sh' hget k hk
  have hcount : (setShards kvs idx newsh).count = kvs.count := rfl
  rw [hcount]
  by_cases hij : idx = i
  · subst hij
    have hlt : idx < kvs.shards.length := (List.get?_eq_some.mp hsh).1
    have : (setShards kvs idx newsh).shards.get? idx = some newsh := by
      simp only [setShards]
      rw [List.get?_set_eq_of_lt _ hlt]
    rw [this] at hget
    obtain rfl := Option.some_injective _ hget
    rcases hkeys k hk with hold | hnew
    · exact hr idx sh hsh k hold
    · exact hnew
  · have : (setShards kvs idx newsh).shards.get? i = kvs.shards.get? i := by
      simp only [setShards]
      exact List.get?_set_ne _ _ hij
    rw [this] at hget
    exact hr i sh' hget k hk

theorem Tracks_set (kvs : KeyValueStore) (live : Finset String) (k : String)
    (v : Value) (sh : shard)
    (hsh : kvs.shards.get? (shardOf kvs.count k) = some sh)
    (ht : Tracks kvs live) :
    Tracks (setShards kvs (shardOf kvs.count k)
      { sh with store := sh.store.insert k v }) (insert k live) := by
  intro k'
  have hcount : (setShards kvs (shardOf kvs.count k)
      { sh with store := sh.store.insert k v }).count = kvs.count := rfl
  rw [hcount]
  have hlt : shardOf kvs.count k < kvs.shards.length := (List.get?_eq_some.mp hsh).1
  have hgetidx : (setShards kvs (shardOf kvs.count k)
      { sh with store := sh.store.insert k v }).shards.get? (shardOf kvs.count k) =
      some { sh with store := sh.store.insert k v } := by
    simp only [setShards]
    rw [List.get?_set_eq_of_lt _ hlt]
  by_cases hkk : k' = k
  · subst hkk
    simp only [Finset.mem_insert_self, true_iff]
    exact ⟨_, hgetidx, (AList.mem_insert _).mpr (Or.inl rfl)⟩
  · rw [Finset.mem_insert]
    simp only [hkk, false_or]
    by_cases hidx : shardOf kvs.count k' = shardOf kvs.count k
    · rw [hidx, ht k']
      constructor
      · rintro ⟨sh'', hget'', hmem''⟩
        rw [hidx] at hget''
        rw [hget''] at hsh
        obtain rfl := Option.some_injective _ hsh
        exact ⟨_, hgetidx, (AList.mem_insert _).mpr (Or.inr hmem'')⟩
      · rintro ⟨sh'', hget'', hmem''⟩
        rw [hgetidx] at hget''
        obtain rfl := Option.some_injective _ hget''
        rcases (AList.mem_insert _).mp hmem'' with h | h
        · exact absurd h hkk
        · exact ⟨sh, by rw [hidx]; exact hsh, h⟩
    · have : (setShards kvs (shardOf kvs.count k)
          { sh with store := sh.store.insert k v }).shards.get? (shardOf kvs.count k') =
          kvs.shards.get? (shardOf kvs.count k') := by
        simp only [setShards]
        exact List.get?_set_ne _ _ (fun hh => hidx hh.symm)
      rw [this]
      exact ht k'

theorem Tracks_del_absent (kvs : KeyValueStore) (live : Finset String) (k : String)
    (sh : shard)
    (hsh : kvs.shards.get? (shardOf kvs.count k) = some sh)
    (habs : k ∉ sh.store)
    (ht : Tracks kvs live) : Tracks kvs (live.erase k) := by
  intro k'
  by_cases hkk : k' = k
  · subst hkk
    simp only [Finset.mem_erase, ne_eq, not_true_eq_false, false_and, false_iff]
    rintro ⟨sh'', hget'', hmem''⟩
    rw [hget''] at hsh
    obtain rfl := Option.some_injective _ hsh
    exact habs hmem''
  · rw [Finset.mem_erase]
    simp only [hkk, ne_eq, not_false_eq_true, true_and]
    exact ht k'

theorem Tracks_del_present (kvs : KeyValueStore) (live : Finset String) (k : String)
    (sh : shard)
    (hsh : kvs.shards.get? (shardOf kvs.count k) = some sh)
    (ht : Tracks kvs live) :
    Tracks (setShards kvs (shardOf kvs.count k)
      { sh with store := sh.store.erase k }) (live.erase k) := by
  intro k'
  have hcount : (setShards kvs (shardOf kvs.count k)
      { sh with store := sh.store.erase k }).count = kvs.count := rfl
  rw [hcount]
  have hlt : shardOf kvs.count k < kvs.shards.length := (List.get?_eq_some.mp hsh).1
  have hgetidx : (setShards kvs (shardOf kvs.count k)
      { sh with store := sh.store.erase k }).shards.get? (shardOf kvs.count k) =
      some { sh with store := sh.store.erase k } := by
    simp only [setShards]
    rw [List.get?_set_eq_of_lt _ hlt]
  by_cases hkk : k' = k
  · subst hkk
    simp only [Finset.mem_erase, ne_eq, not_true_eq_false, false_and, false_iff]
    rintro ⟨sh'', hget'', hmem''⟩
    rw [hgetidx] at hget''
    obtain rfl := Option.some_injective _ hget''
    exact absurd hmem'' (by
      intro hmem
      exact (AList.mem_erase.mp hmem).1 rfl)
  · rw [Finset.mem_erase]
    simp only [hkk, ne_eq, not_false_eq_true, true_and]
    by_cases hidx : shardOf kvs.count k' = shardOf kvs.count k
    · rw [ht k']
      constructor
      · rintro ⟨sh'', hget'', hmem''⟩
        rw [hidx] at hget''
        rw [hget''] at hsh
        obtain rfl := Option.some_injective _ hsh
        refine ⟨_, by rw [hidx]; exact hgetidx, ?_⟩
        exact AList.mem_erase.mpr ⟨hkk, hmem''⟩
      · rintro ⟨sh'', hget'', hmem''⟩
        rw [hidx, hgetidx] at hget''
        obtain rfl := Option.some_injective _ hget''
        exact ⟨sh, by rw [hidx]; exact hsh, (AList.mem_erase.mp hmem'').2⟩
    · have : (setShards kvs (shardOf kvs.count k)
          { sh with store := sh.store.erase k }).shards.get? (shardOf kvs.count k') =
          kvs.shards.get? (shardOf kvs.count k') := by
        simp only [setShards]
        exact List.get?_set_ne _ _ (fun hh => hidx hh.symm)
      rw [this]
      exact ht k'

theorem hist_set (kvs : KeyValueStore) (live : Finset String) (k : String) (v : Value)
    (hinv : HistInv kvs live) :
    ∃ s1, kvs.Set k v = some (s1, none) ∧ HistInv s1 (insert k live) := by
  obtain ⟨hwf, hr, ht⟩ := hinv
  obtain ⟨sh, hsh, hmu⟩ := exists_shard kvs k hwf
  refine ⟨_, Set_eq kvs k v sh hwf.1 hsh hmu, ?_, ?_, ?_⟩
  · exact WF_setShards kvs _ _ hwf hmu
  · refine Routed_update kvs _ sh _ hsh ?_ hr
    intro k' hk'
    rcases (AList.mem_insert _).mp hk' with h | h
    · exact Or.inr (by rw [h])
    · exact Or.inl h
  · exact Tracks_set kvs live k v sh hsh ht

theorem hist_del (kvs : KeyValueStore) (live : Finset String) (k : String)
    (hinv : HistInv kvs live) :
    ∃ s1 e, kvs.Delete k = some (s1, e) ∧ HistInv s1 (live.erase k) := by
  obtain ⟨hwf, hr, ht⟩ := hinv
  obtain ⟨sh, hsh, hmu⟩ := exists_shard kvs k hwf
  rcases hlk : sh.store.lookup k with _ | v
  · exact ⟨kvs, some ErrCode.ErrNotFound,
      Delete_eq_absent kvs k sh hwf.1 hsh hmu hlk,
      hwf, hr, Tracks_del_absent kvs live k sh hsh (AList.lookup_eq_none.mp hlk) ht⟩
  · refine ⟨_, none, Delete_eq_present kvs k sh v hwf.1 hsh hmu hlk, ?_, ?_, ?_⟩
    · exact WF_setShards kvs _ _ hwf hmu
    · refine Routed_update kvs _ sh _ hsh ?_ hr
      intro k' hk'
      exact Or.inl (AList.mem_erase.mp hk').2
    · exact Tracks_del_present kvs live k sh hsh ht

theorem hist_run (ops : List Op) :
    ∀ kvs live, HistInv kvs live →
      ∃ sF, runOps kvs ops = some sF ∧ HistInv sF (ops.foldl liveStep live) := by
  induction ops with
  | nil => exact fun kvs live hinv => ⟨kvs, rfl, hinv⟩
  | cons op rest ih =>
    intro kvs live hinv
    cases op with
    | set k v =>
      obtain ⟨s1, hset, hinv1⟩ := hist_set kvs live k v hinv
      obtain ⟨sF, hrun, hinvF⟩ := ih s1 (insert k live) hinv1
      refine ⟨sF, ?_, hinvF⟩
      simp only [runOps, List.foldlM_cons, applyOp, hset, Option.map_some',
        Option.some_bind]
      exact hrun
    | del k =>
      obtain ⟨s1, e, hdel, hinv1⟩ := hist_del kvs live k hinv
      obtain ⟨sF, hrun, hinvF⟩ := ih s1 (live.erase k) hinv1
      refine ⟨sF, ?_, hinvF⟩
      simp only [runOps, List.foldlM_cons, applyOp, hdel, Option.map_some',
        Option.some_bind]
      exact hrun

/-! ### The Keys concatenation -/

theorem keysFold (shs : List shard) :
    ∀ acc : List String, (∀ sh ∈ shs, sh.mu = false) →
      shs.foldlM keysStep acc =
        some (acc ++ (shs.map (fun sh => sh.store.keys)).flatten) := by
  induction shs with
  | nil => intro acc _; simp
  | cons sh rest ih =>
    intro acc hmu
    have h1 : sh.mu = false := hmu sh (List.mem_cons_self _ _)
    have hstep : keysStep acc sh = some (acc ++ sh.store.keys) := by
      simp [keysStep, h1, shard.Keys]
    simp only [List.foldlM_cons, hstep, Option.bind_eq_bind, Option.some_bind]
    rw [ih (acc ++ sh.store.keys) (fun x hx => hmu x (List.mem_cons_of_mem _ hx))]
    simp

theorem Keys_eq (kvs : KeyValueStore) (hmu : ∀ sh ∈ kvs.shards, sh.mu = false) :
    kvs.Keys = some ((kvs.shards.map (fun sh => sh.store.keys)).flatten, none) := by
  unfold KeyValueStore.Keys
  rw [keysFold kvs.shards [] hmu]
  simp

theorem keys_nodup_of_routed (kvs : KeyValueStore) (hr : Routed kvs) :
    ((kvs.shards.map (fun sh => sh.store.keys)).flatten).Nodup := by
  rw [List.nodup_flatten]
  constructor
  · intro l hl
    obtain ⟨sh, _, rfl⟩ := List.mem_map.mp hl
    exact AList.keys_nodup sh.store
  · rw [List.pairwise_map]
    rw [List.pairwise_iff_get]
    intro i j hij
    intro k hki hkj
    have hi : kvs.shards.get? i.1 = some (kvs.shards.get i) := List.get?_eq_get i.2
    have hj : kvs.shards.get? j.1 = some (kvs.shards.get j) := List.get?_eq_get j.2
    have e1 : shardOf kvs.count k = i.1 :=
      hr i.1 _ hi k (AList.mem_keys.mpr hki)
    have e2 : shardOf kvs.count k = j.1 :=
      hr j.1 _ hj k (AList.mem_keys.mpr hkj)
    exact absurd (e1 ▸ e2) (Nat.ne_of_lt hij)

theorem keys_mem_iff (kvs : KeyValueStore) (live : Finset String)
    (hinv : HistInv kvs live) (k : String) :
    k ∈ (kvs.shards.map (fun sh => sh.store.keys)).flatten ↔ k ∈ live := by
  obtain ⟨hwf, hr, ht⟩ := hinv
  rw [List.mem_flatten]
  constructor
  · rintro ⟨l, hl, hkl⟩
    obtain ⟨sh, hsh, rfl⟩ := List.mem_map.mp hl
    obtain ⟨i, hget⟩ := List.mem_iff_get?.mp hsh
    have hidx : shardOf kvs.count k = i := hr i sh hget k (AList.mem_keys.mpr hkl)
    exact (ht k).mpr ⟨sh, by rw [hidx]; exact hget, AList.mem_keys.mpr hkl⟩
  · intro hk
    obtain ⟨sh, hget, hmem⟩ := (ht k).mp hk
    exact ⟨sh.store.keys, List.mem_map.mpr ⟨sh, List.get?_mem hget, rfl⟩,
      AList.mem_keys.mp hmem⟩

/-! ### The size formatter -/

theorem formatSizeLoop_spec (size : Nat) :
    ∀ (lst : List String) (d i : Nat) (hi : i < lst.length),
      size < d * 1024 ^ (i + 1) →
      (∀ j, j < i → d * 1024 ^ (j + 1) ≤ size) →
      formatSizeLoop size d lst = (d * 1024 ^ i, lst.get ⟨i, hi⟩) := by
  intro lst
  induction lst with
  | nil => intro d i hi; exact absurd hi (Nat.not_lt_zero i)
  | cons s rest ih =>
    intro d i hi hlt hge
    cases i with
    | zero =>
      simp only [formatSizeLoop]
      rw [if_pos (by simpa [pow_one] using hlt)]
      simp
    | succ j =>
      simp only [formatSizeLoop]
      rw [if_neg (by
        have := hge 0 (Nat.succ_pos j)
        simpa [pow_one] using Nat.not_lt.mpr this)]
      have hrec := ih (d * 1024) j (Nat.lt_of_succ_lt_succ hi)
        (by rw [show d * 1024 * 1024 ^ (j + 1) = d * 1024 ^ (j + 1 + 1) by ring]
            exact hlt)
        (by intro j' hj'
            rw [show d * 1024 * 1024 ^ (j' + 1) = d * 1024 ^ (j' + 1 + 1) by ring]
            exact hge (j' + 1) (Nat.succ_lt_succ hj'))
      rw [hrec]
      rw [Prod.mk.injEq]
      exact ⟨by ring, rfl⟩

theorem formatSize_spec (n i : Nat) (hn : n < 18446744073709551616)
    (hlt : n < 1024 ^ (i + 1)) (hge : i = 0 ∨ 1024 ^ i ≤ n) :
    formatSize n = toString (n / 1024 ^ i) ++ " " ++ suffixes.getD i "" := by
  have hi : i < suffixes.length := by
    rcases hge with rfl | hge
    · simp [suffixes]
    · by_contra hcon
      have h9 : 9 ≤ i := by simpa [suffixes] using Nat.not_lt.mp hcon
      have : (1024 : Nat) ^ 9 ≤ 1024 ^ i := Nat.pow_le_pow_right (by norm_num) h9
      have : (1024 : Nat) ^ 9 ≤ n := le_trans this hge
      omega
  have hmain := formatSizeLoop_spec n suffixes 1 i hi
    (by simpa using hlt)
    (by intro j hj
        rcases hge with rfl | hge
        · exact absurd hj (Nat.not_lt_zero j)
        · have : (1024 : Nat) ^ (j + 1) ≤ 1024 ^ i :=
            Nat.pow_le_pow_right (by norm_num) hj
          simpa using le_trans this hge)
  unfold formatSize
  rw [hmain]
  simp only [one_mul]
  rw [List.getD_eq_get suffixes "" hi]

theorem sizeFold (shs : List shard) :
    ∀ acc : Nat, (∀ sh ∈ shs, sh.mu = false) →
      acc + (shs.map (fun sh => sh.store.entries.length)).sum < 18446744073709551616 →
      shs.foldlM sizeStep acc =
        some (acc + (shs.map (fun sh => sh.store.entries.length)).sum) := by
  induction shs with
  | nil => intro acc _ _; simp
  | cons sh rest ih =>
    intro acc hmu hlt
    have h1 : sh.mu = false := hmu sh (List.mem_cons_self _ _)
    have hbound : acc + sh.store.entries.length < 18446744073709551616 := by
      simp only [List.map_cons, List.sum_cons] at hlt
      omega
    have hstep : sizeStep acc sh = some (acc + sh.store.entries.length) := by
      simp [sizeStep, h1, Nat.mod_eq_of_lt hbound]
    simp only [List.foldlM_cons, hstep, Option.bind_eq_bind, Option.some_bind]
    rw [ih (acc + sh.store.entries.length)
      (fun x hx => hmu x (List.mem_cons_of_mem _ hx))
      (by simp only [List.map_cons, List.sum_cons] at hlt; omega)]
    simp only [List.map_cons, List.sum_cons]
    rw [Nat.add_assoc]

theorem Size_eq (kvs : KeyValueStore) (hmu : ∀ sh ∈ kvs.shards, sh.mu = false)
    (hlt : totalEntries kvs < 18446744073709551616) :
    kvs.Size = some (formatSize (totalEntries kvs)) := by
  unfold KeyValueStore.Size
  rw [sizeFold kvs.shards 0 hmu (by simpa [totalEntries] using hlt)]
  simp [totalEntries]

/-! ### Further helpers: operation results and inversions -/

theorem Get_ok (s : KeyValueStore) (k : String) (v : Value) (hwf : WF s)
    (hlk : ∀ sh, s.shards.get? (shardOf s.count k) = some sh →
      sh.store.lookup k = some v) :
    s.Get k = some (Except.ok v) := by
  obtain ⟨sh, hsh, hmu⟩ := exists_shard s k hwf
  rw [Get_eq s k sh hwf.1 hsh hmu, hlk sh hsh]

theorem set_state (kvs : KeyValueStore) (k : String) (v : Value) (hwf : WF kvs) :
    ∃ s1 sh, kvs.shards.get? (shardOf kvs.count k) = some sh ∧
      kvs.Set k v = some (s1, none) ∧ WF s1 ∧ s1.count = kvs.count ∧
      s1.shards.get? (shardOf kvs.count k) =
        some { sh with store := sh.store.insert k v } := by
  obtain ⟨sh, hsh, hmu⟩ := exists_shard kvs k hwf
  have hlt : shardOf kvs.count k < kvs.shards.length := (List.get?_eq_some.mp hsh).1
  refine ⟨_, sh, hsh, Set_eq kvs k v sh hwf.1 hsh hmu,
    WF_setShards kvs _ _ hwf hmu, rfl, ?_⟩
  simp only [setShards]
  rw [List.get?_set_eq_of_lt _ hlt]

theorem unlockAll_stores (shs : List shard) :
    ∀ shs', unlockAll shs = some shs' →
      shs'.map (fun sh => sh.store) = shs.map (fun sh => sh.store) := by
  induction shs with
  | nil =>
    intro shs' h
    simp only [unlockAll] at h
    obtain rfl := Option.some_injective _ h
    rfl
  | cons sh rest ih =>
    intro shs' h
    simp only [unlockAll] at h
    rcases hmu : sh.mu with _ | _
    · rw [hmu] at h; simp at h
    · rw [hmu, if_pos rfl] at h
      rcases hr : unlockAll rest with _ | r
      · rw [hr] at h; simp at h
      · rw [hr] at h
        simp only [Option.map_some'] at h
        obtain rfl := Option.some_injective _ h
        simp only [List.map_cons]
        rw [ih r hr]

theorem setShards_lookup_frame (kvs : KeyValueStore) (idx i : Nat)
    (sh newsh : shard) (kp : String)
    (hsh : kvs.shards.get? idx = some sh)
    (hlook : newsh.store.lookup kp = sh.store.lookup kp) :
    (((setShards kvs idx newsh).shards.get? i).map fun s => s.store.lookup kp) =
      ((kvs.shards.get? i).map fun s => s.store.lookup kp) := by
  by_cases hij : idx = i
  · subst hij
    have hlt : idx < kvs.shards.length := (List.get?_eq_some.mp hsh).1
    have h1 : (setShards kvs idx newsh).shards.get? idx = some newsh := by
      simp only [setShards]
      rw [List.get?_set_eq_of_lt _ hlt]
    rw [h1, hsh]
    simp only [Option.map_some']
    rw [hlook]
  · have h1 : (setShards kvs idx newsh).shards.get? i = kvs.shards.get? i := by
      simp only [setShards]
      exact List.get?_set_ne _ _ hij
    rw [h1]

theorem Set_inversion (kvs s1 : KeyValueStore) (k : String) (v : Value)
    (e1 : Option ErrCode) (h : kvs.Set k v = some (s1, e1)) :
    ∃ idx sh, kvs.shards.get? idx = some sh ∧ sh.mu = false ∧
      s1 = setShards kvs idx { sh with store := sh.store.insert k v } ∧
      e1 = none := by
  unfold KeyValueStore.Set at h
  rcases h1 : kvs.shardIndex k with _ | idx
  · rw [h1] at h; simp at h
  · rw [h1] at h
    simp only [Option.bind_eq_bind, Option.some_bind] at h
    rcases h2 : kvs.shards.get? idx with _ | sh
    · rw [h2] at h; simp at h
    · rw [h2] at h
      simp only [Option.some_bind] at h
      rcases hmu : sh.mu with _ | _
      · rw [hmu] at h
        simp only [Bool.false_eq_true, if_false, Option.some_inj] at h
        obtain ⟨h4, h5⟩ := Prod.mk.inj h
        exact ⟨idx, sh, h2, hmu, by rw [hmu]; exact h4.symm, h5.symm⟩
      · rw [hmu] at h; simp at h

theorem Delete_inversion (kvs s2 : KeyValueStore) (k : String)
    (e2 : Option ErrCode) (h : kvs.Delete k = some (s2, e2)) :
    s2 = kvs ∨
    ∃ idx sh, kvs.shards.get? idx = some sh ∧ sh.mu = false ∧
      s2 = setShards kvs idx { sh with store := sh.store.erase k } := by
  unfold KeyValueStore.Delete at h
  rcases h1 : kvs.shardIndex k with _ | idx
  · rw [h1] at h; simp at h
  · rw [h1] at h
    simp only [Option.bind_eq_bind, Option.some_bind] at h
    rcases h2 : kvs.shards.get? idx with _ | sh
    · rw [h2] at h; simp at h
    · rw [h2] at h
      simp only [Option.some_bind] at h
      rcases hmu : sh.mu with _ | _
      · rw [hmu] at h
        simp only [Bool.false_eq_true, if_false] at h
        rcases h3 : sh.store.lookup k with _ | v
        · rw [h3] at h
          simp only [Option.some_inj] at h
          obtain ⟨h4, _⟩ := Prod.mk.inj h
          exact Or.inl h4.symm
        · rw [h3] at h
          simp only [Option.some_inj] at h
          obtain ⟨h4, _⟩ := Prod.mk.inj h
          exact Or.inr ⟨idx, sh, h2, hmu, by rw [hmu]; exact h4.symm⟩
      · rw [hmu] at h; simp at h

/-! ### Claim theorems -/

/-- C1 counterexample: with one shard, `Set "a" v` for the value `v` with
reference identity `ref = 7` followed by `Get "a"` returns exactly
`Except.ok v` — the very value the caller passed in, with the same `ref`.
`src/kvs.go` stores `val` itself (`sh.store[key] = val`) and returns the
stored reference (`return val, nil`); no `Clone` call occurs.  So the
returned value is reference-identical both to the caller's `v` and to the
internally stored copy, refuting the claim that it is identical to
neither. -/
theorem set_get_returns_caller_reference_cex :
    ((NewKeyValueStore 1).bind fun s0 =>
      (s0.Set "a" ⟨7, 42⟩).bind fun p => p.1.Get "a") =
    some (Except.ok ⟨7, 42⟩) := by rfl

/-- C1 amended: for every well-formed store, `Set(k, v)` stores the caller's
value `v` itself (no `v.Clone()` call) and `Get(k)` then returns the stored
reference itself: the result is `v` — deep-equal to `v` and also
reference-identical to `v` and to the stored copy.  Clone-on-boundary is
not implemented by the code. -/
theorem set_get_no_clone (kvs : KeyValueStore) (k : String) (v : Value)
    (hwf : WF kvs) :
    ∃ s1, kvs.Set k v = some (s1, none) ∧ s1.Get k = some (Except.ok v) := by
  obtain ⟨s1, sh, hsh, hset, hwf1, hcnt, hget1⟩ := set_state kvs k v hwf
  refine ⟨s1, hset, Get_ok s1 k v hwf1 ?_⟩
  intro sh1 hsh1
  have hcong : shardOf s1.count k = shardOf kvs.count k := by rw [hcnt]
  rw [hcong, hget1] at hsh1
  obtain rfl := Option.some_injective _ hsh1
  exact AList.lookup_insert sh.store

theorem set_get_no_clone_witness :
    ∃ s1, (⟨[⟨0, false, ∅⟩], 1⟩ : KeyValueStore).Set "a" ⟨7, 42⟩ =
        some (s1, none) ∧ s1.Get "a" = some (Except.ok ⟨7, 42⟩) :=
  set_get_no_clone ⟨[⟨0, false, ∅⟩], 1⟩ "a" ⟨7, 42⟩ (by decide)

/-- C2: `NewKeyValueStore` performs no validation of `numShards`
(`src/kvs.go` lines 51-64): `NewKeyValueStore(0)` succeeds and returns a
store with zero shards (on which `Get` then panics with a division by zero
in `shardIndex`, modelled `none`), `NewKeyValueStore(-1)` panics inside
`make` rather than returning `ErrInvalidNumShards`; no path returns
`ErrInvalidNumShards`, which `src/err.go` defines but never uses.  For
positive counts construction does succeed with `Size()` reporting
`"0 B"`. -/
theorem newKeyValueStore_no_validation :
    NewKeyValueStore 0 = some ⟨[], 0⟩ ∧
    NewKeyValueStore (-1) = none ∧
    ((NewKeyValueStore 0).bind fun s => s.Get "a") = none ∧
    ((NewKeyValueStore 3).bind KeyValueStore.Size) = some "0 B" :=
  ⟨rfl, rfl, rfl, rfl⟩

/-- C3: `BatchSet` and `BatchDelete` (`src/kvs.go`) first call `Begin()`,
which write-locks every shard, and then call `sh.mu.Lock()` again inside
the per-entry loop on a shard this same call already locked — a
self-deadlock on Go's non-reentrant mutexes, modelled as `none`.  Any
non-empty batch deadlocks (here one entry on a one-shard store); only the
empty batch completes (`Begin` then `Commit`, no loop iteration). -/
theorem batch_operations_self_deadlock :
    ((NewKeyValueStore 1).bind fun s => s.BatchSet [("a", ⟨0, 0⟩)]) = none ∧
    ((NewKeyValueStore 1).bind fun s => s.BatchDelete ["a"]) = none ∧
    ((NewKeyValueStore 1).bind fun s => s.BatchSet []) =
      some (⟨[⟨0, false, ∅⟩], 1⟩, none) :=
  ⟨rfl, rfl, rfl⟩

/-- C4 counterexample: a `Set` issued between `Begin()` and `Rollback()` by
the bracket-holding thread does not apply immediately — it deadlocks
(`sh.mu.Lock()` on the shard lock `Begin` already took, modelled `none`),
refuting the claim that mutations issued inside the bracket are applied
and remain visible after `Rollback`. -/
theorem set_between_begin_rollback_deadlocks :
    (((NewKeyValueStore 1).bind KeyValueStore.Begin).bind
      fun s => s.Set "a" ⟨0, 1⟩) = none := by rfl

/-- C4 amended: `Commit()` and `Rollback()` have identical effect — both
release every shard's exclusive lock — and neither buffers nor discards
writes: `Rollback` leaves every shard's key-value map exactly as it was,
so mutations applied before `Begin()` (or by other threads) are never
undone.  However, a `Set`/`Delete` issued by the bracket-holding thread
between `Begin()` and `Rollback()` deadlocks on the already-held shard
lock instead of being applied (see the counterexample). -/
theorem commit_rollback_unlock_only (kvs kvs' : KeyValueStore) (i : Nat)
    (h : kvs.Rollback = some kvs') :
    kvs.Commit = kvs.Rollback ∧
    ((kvs'.shards.get? i).map fun sh => sh.store) =
      ((kvs.shards.get? i).map fun sh => sh.store) := by
  refine ⟨rfl, ?_⟩
  unfold KeyValueStore.Rollback at h
  rcases hu : unlockAll kvs.shards with _ | shs'
  · rw [hu] at h; simp at h
  · rw [hu] at h
    simp only [Option.map_some'] at h
    obtain rfl := Option.some_injective _ h
    have hmaps := unlockAll_stores kvs.shards shs' hu
    rw [← List.get?_map, ← List.get?_map]
    rw [show ({ kvs with shards := shs' } : KeyValueStore).shards = shs' from rfl]
    rw [hmaps]

theorem commit_rollback_unlock_only_witness :
    (⟨[⟨0, true, ∅⟩], 1⟩ : KeyValueStore).Commit =
      (⟨[⟨0, true, ∅⟩], 1⟩ : KeyValueStore).Rollback ∧
    (((⟨[⟨0, false, ∅⟩], 1⟩ : KeyValueStore).shards.get? 0).map fun sh => sh.store) =
      (((⟨[⟨0, true, ∅⟩], 1⟩ : KeyValueStore).shards.get? 0).map fun sh => sh.store) :=
  commit_rollback_unlock_only ⟨[⟨0, true, ∅⟩], 1⟩ ⟨[⟨0, false, ∅⟩], 1⟩ 0 rfl

/-- C5: `shardIndex` equals the FNV-1a-style hash of the key's bytes
(`fnv32`: accumulator starts at 2166136261, each byte does
`acc = (acc * 16777619) XOR byte` in 32-bit arithmetic) reduced
`mod count`; the result lies in `[0, count)` (non-negative by construction
in `Nat`); and it depends only on the key's bytes and the shard count —
any store with the same count yields the same index, so repeated
invocations on the same store always agree. -/
theorem shardIndex_pure_deterministic_in_range (kvs kvs2 : KeyValueStore)
    (key : String) (h : 0 < kvs.count) (h2 : kvs2.count = kvs.count) :
    kvs.shardIndex key = some (fnv32 (keyBytes key) % kvs.count) ∧
    fnv32 (keyBytes key) % kvs.count < kvs.count ∧
    kvs2.shardIndex key = kvs.shardIndex key := by
  refine ⟨shardIndex_eq kvs key h, Nat.mod_lt _ h, ?_⟩
  rw [shardIndex_eq kvs key h, shardIndex_eq kvs2 key (by rw [h2]; exact h)]
  unfold shardOf
  rw [h2]

theorem shardIndex_pure_deterministic_in_range_witness :
    (⟨[⟨0, false, ∅⟩], 1⟩ : KeyValueStore).shardIndex "a" =
      some (fnv32 (keyBytes "a") % 1) ∧
    fnv32 (keyBytes "a") % 1 < 1 ∧
    (⟨[], 1⟩ : KeyValueStore).shardIndex "a" =
      (⟨[⟨0, false, ∅⟩], 1⟩ : KeyValueStore).shardIndex "a" :=
  shardIndex_pure_deterministic_in_range ⟨[⟨0, false, ∅⟩], 1⟩ ⟨[], 1⟩ "a"
    (by decide) rfl

/-- C6: for a key absent from every shard of a well-formed store, `Get`
fails with `ErrNotFound` and `Delete` fails with `ErrNotFound` returning
the store unchanged (no mutation on the failing path). -/
theorem get_delete_absent_notfound (kvs : KeyValueStore) (k : String)
    (hwf : WF kvs) (habs : ∀ sh ∈ kvs.shards, sh.store.lookup k = none) :
    kvs.Get k = some (Except.error ErrCode.ErrNotFound) ∧
    kvs.Delete k = some (kvs, some ErrCode.ErrNotFound) := by
  obtain ⟨sh, hsh, hmu⟩ := exists_shard kvs k hwf
  have hlk := habs sh (List.get?_mem hsh)
  refine ⟨?_, Delete_eq_absent kvs k sh hwf.1 hsh hmu hlk⟩
  rw [Get_eq kvs k sh hwf.1 hsh hmu, hlk]

theorem get_delete_absent_notfound_witness :
    (⟨[⟨0, false, ∅⟩, ⟨1, false, ∅⟩], 2⟩ : KeyValueStore).Get "missing" =
      some (Except.error ErrCode.ErrNotFound) ∧
    (⟨[⟨0, false, ∅⟩, ⟨1, false, ∅⟩], 2⟩ : KeyValueStore).Delete "missing" =
      some (⟨[⟨0, false, ∅⟩, ⟨1, false, ∅⟩], 2⟩, some ErrCode.ErrNotFound) :=
  get_delete_absent_notfound ⟨[⟨0, false, ∅⟩, ⟨1, false, ∅⟩], 2⟩ "missing"
    (by decide) (by decide)

/-- C7: `Set` is upsert-only and always succeeds — both `Set(k, v1)` and
`Set(k, v2)` return a `nil` error (never `ErrDuplicate`), and after the
two calls `Get(k)` returns `v2`: the second `Set` unconditionally
overwrote the first entry. -/
theorem set_upsert_overwrites (kvs : KeyValueStore) (k : String)
    (v1 v2 : Value) (hwf : WF kvs) :
    ∃ s1 s2, kvs.Set k v1 = some (s1, none) ∧ s1.Set k v2 = some (s2, none) ∧
      s2.Get k = some (Except.ok v2) := by
  obtain ⟨s1, sh, hsh, hset1, hwf1, hcnt1, hget1⟩ := set_state kvs k v1 hwf
  obtain ⟨s2, sh1, hsh1, hset2, hwf2, hcnt2, hget2⟩ := set_state s1 k v2 hwf1
  refine ⟨s1, s2, hset1, hset2, Get_ok s2 k v2 hwf2 ?_⟩
  intro shx hshx
  have hcong : shardOf s2.count k = shardOf s1.count k := by rw [hcnt2]
  rw [hcong, hget2] at hshx
  obtain rfl := Option.some_injective _ hshx
  exact AList.lookup_insert sh1.store

theorem set_upsert_overwrites_witness :
    ∃ s1 s2, (⟨[⟨0, false, ∅⟩], 1⟩ : KeyValueStore).Set "k" ⟨1, 10⟩ =
        some (s1, none) ∧
      s1.Set "k" ⟨2, 20⟩ = some (s2, none) ∧
      s2.Get "k" = some (Except.ok ⟨2, 20⟩) :=
  set_upsert_overwrites ⟨[⟨0, false, ∅⟩], 1⟩ "k" ⟨1, 10⟩ ⟨2, 20⟩ (by decide)

/-- C8: starting from a fresh store with any positive shard count and
running any sequential history of `Set`/`Delete` operations, `Keys()`
returns a list whose length equals the number of distinct keys Set and not
subsequently Deleted (`liveOf`). -/
theorem keys_length_eq_live_count (count : Nat) (ops : List Op)
    (h : 0 < count) :
    ∃ s0 sF ks, NewKeyValueStore (count : Int) = some s0 ∧
      runOps s0 ops = some sF ∧ sF.Keys = some (ks, none) ∧
      ks.length = (liveOf ops).card := by
  obtain ⟨s0, hnew, hinv0⟩ := new_inv count h
  obtain ⟨sF, hrun, hinvF⟩ := hist_run ops s0 ∅ hinv0
  refine ⟨s0, sF, _, hnew, hrun, Keys_eq sF hinvF.1.2.2, ?_⟩
  have hnd := keys_nodup_of_routed sF hinvF.2.1
  have hfin : ((sF.shards.map (fun sh => sh.store.keys)).flatten).toFinset =
      liveOf ops := by
    ext kx
    rw [List.mem_toFinset]
    exact keys_mem_iff sF (liveOf ops) hinvF kx
  rw [← hfin]
  exact (List.toFinset_card_of_nodup hnd).symm

theorem keys_length_eq_live_count_witness :
    ∃ s0 sF ks, NewKeyValueStore ((2 : Nat) : Int) = some s0 ∧
      runOps s0 [Op.set "a" ⟨0, 1⟩, Op.set "b" ⟨1, 2⟩, Op.set "a" ⟨2, 3⟩,
        Op.del "b", Op.del "zz"] = some sF ∧
      sF.Keys = some (ks, none) ∧
      ks.length = (liveOf [Op.set "a" ⟨0, 1⟩, Op.set "b" ⟨1, 2⟩,
        Op.set "a" ⟨2, 3⟩, Op.del "b", Op.del "zz"]).card :=
  keys_length_eq_live_count 2 [Op.set "a" ⟨0, 1⟩, Op.set "b" ⟨1, 2⟩,
    Op.set "a" ⟨2, 3⟩, Op.del "b", Op.del "zz"] (by decide)

/-- C9: `Size()` sums the per-shard entry counts (`totalEntries`) and
renders the total through `formatSize`: for a total of `n` entries
(`n` in the `uint64` range) the result is the decimal rendering of
`n / 1024 ^ i` followed by a space and the `i`-th suffix of
`B, KB, MB, GB, TB, PB, EB, ZB, YB`, where `i` is the least index with
`n < 1024 ^ (i + 1)` (characterised by `n < 1024 ^ (i + 1)` together with
`i = 0 ∨ 1024 ^ i ≤ n`). -/
theorem size_formats_entry_count (kvs : KeyValueStore) (n i : Nat)
    (hmu : ∀ sh ∈ kvs.shards, sh.mu = false)
    (hn : totalEntries kvs = n) (h64 : n < 18446744073709551616)
    (hlt : n < 1024 ^ (i + 1)) (hge : i = 0 ∨ 1024 ^ i ≤ n) :
    kvs.Size = some (toString (n / 1024 ^ i) ++ " " ++ suffixes.getD i "") := by
  rw [Size_eq kvs hmu (by rw [hn]; exact h64), hn,
    formatSize_spec n i h64 hlt hge]

theorem size_formats_entry_count_witness :
    (⟨[⟨0, false, AList.insert "a" ⟨0, 1⟩ ∅⟩], 1⟩ : KeyValueStore).Size =
      some (toString (1 / 1024 ^ 0) ++ " " ++ suffixes.getD 0 "") :=
  size_formats_entry_count ⟨[⟨0, false, AList.insert "a" ⟨0, 1⟩ ∅⟩], 1⟩ 1 0
    (by decide) (by decide) (by decide) (by decide) (Or.inl rfl)

/-- C10: single-key operations have no effect beyond their own key — after
`Set(k, v)` or `Delete(k)`, the lookup of any other key `kp ≠ k` in every
shard (position `i`) is exactly what it was before.  (`Get`, `Keys` and
`Size` translate to read-only functions in this embedding: their code
paths in `src/kvs.go` contain no map write, so they cannot modify any
shard's map.) -/
theorem single_key_frame (kvs s1 s2 : KeyValueStore) (e1 e2 : Option ErrCode)
    (k kp : String) (v : Value) (i : Nat) (hne : kp ≠ k)
    (hset : kvs.Set k v = some (s1, e1)) (hdel : kvs.Delete k = some (s2, e2)) :
    ((s1.shards.get? i).map fun sh => sh.store.lookup kp) =
      ((kvs.shards.get? i).map fun sh => sh.store.lookup kp) ∧
    ((s2.shards.get? i).map fun sh => sh.store.lookup kp) =
      ((kvs.shards.get? i).map fun sh => sh.store.lookup kp) := by
  constructor
  · obtain ⟨idx, sh, hsh, hmu, rfl, rfl⟩ := Set_inversion kvs s1 k v e1 hset
    exact setShards_lookup_frame kvs idx i sh _ kp hsh
      (AList.lookup_insert_ne hne)
  · rcases Delete_inversion kvs s2 k e2 hdel with rfl | ⟨idx, sh, hsh, hmu, rfl⟩
    · rfl
    · exact setShards_lookup_frame kvs idx i sh _ kp hsh
        (AList.lookup_erase_ne hne)

theorem single_key_frame_witness :
    (((⟨[⟨0, false, AList.insert "a" ⟨3, 3⟩ ∅⟩], 1⟩ :
        KeyValueStore).shards.get? 0).map fun sh => sh.store.lookup "b") =
      (((⟨[⟨0, false, ∅⟩], 1⟩ : KeyValueStore).shards.get? 0).map
        fun sh => sh.store.lookup "b") ∧
    (((⟨[⟨0, false, ∅⟩], 1⟩ : KeyValueStore).shards.get? 0).map
        fun sh => sh.store.lookup "b") =
      (((⟨[⟨0, false, ∅⟩], 1⟩ : KeyValueStore).shards.get? 0).map
        fun sh => sh.store.lookup "b") :=
  single_key_frame ⟨[⟨0, false, ∅⟩], 1⟩
    ⟨[⟨0, false, AList.insert "a" ⟨3, 3⟩ ∅⟩], 1⟩ ⟨[⟨0, false, ∅⟩], 1⟩
    none (some ErrCode.ErrNotFound) "a" "b" ⟨3, 3⟩ 0 (by decide) rfl rfl
